import Mathlib

/-!
# Verification of the Modbus monitor core (`ModbusPyQt/test_0.8.0.py`)

A shallow embedding of the address-mapping, request-batching and
value-decoding engine of the Modbus-TCP monitor, together with proofs of
the specification's claims about it.

Conventions of the embedding:
* Python integers are modelled as `Int` (unbounded), register words read
  from the device as `Nat` (pymodbus delivers words in `0..65535`; the
  numeric claims carry that bound as a hypothesis).
* Fallible Python code (exceptions, `dict` misses, index errors) is
  modelled with `Option`.
* Python's stable in-place `list.sort(key=...)` is modelled by
  `List.insertionSort`, which is also a stable sort with respect to the
  same key, hence extensionally equal.
* `dict` lookup is modelled over the association list of the insertions,
  where a later insertion shadows an earlier one with the same key.
-/

namespace ModbusCore

/-! ## Data model (`ModbusPoint`, `Batch`, source lines 38-54) -/

/-- Embedding of the dataclass `ModbusPoint` (lines 38-46). -/
structure ModbusPoint where
  label : String
  method : String
  offset : Int
  size : Int
  fmt : String
  mem : String
  plc_addr : Int
deriving DecidableEq, Repr

/-- Embedding of the dataclass `Batch` (lines 49-54). -/
structure Batch where
  method : String
  start : Int
  count : Int
  points : List ModbusPoint
deriving DecidableEq, Repr

/-! ## `parse_int` (lines 58-62) and its collaborators -/

/-- Truncation toward zero: the value of Python's `int(x)` on a numeric
`x`, whose value is an exact rational. -/
def pyTrunc (q : ℚ) : Int := if 0 ≤ q then ⌊q⌋ else ⌈q⌉

/-- ASCII lower-casing of one character (Python `str.lower`, restricted
to the ASCII range that this program's cell values use). -/
def pyLowerChar (c : Char) : Char :=
  if 'A' ≤ c ∧ c ≤ 'Z' then Char.ofNat (c.toNat + 32) else c

/-- Python `str.lower` (ASCII). -/
def pyLower (s : String) : String := String.mk (s.toList.map pyLowerChar)

/-- ASCII upper-casing of one character (Python `str.upper`). -/
def pyUpperChar (c : Char) : Char :=
  if 'a' ≤ c ∧ c ≤ 'z' then Char.ofNat (c.toNat - 32) else c

/-- Python `str.upper` (ASCII). -/
def pyUpper (s : String) : String := String.mk (s.toList.map pyUpperChar)

/-- The whitespace characters Python's `str.strip` removes (ASCII). -/
def pySpace : List Char := [' ', '\t', '\n', '\r', '\x0b', '\x0c']

/-- Python `str.strip()`: drop leading and trailing whitespace. -/
def pyStrip (s : String) : String :=
  String.mk (((s.toList.dropWhile (pySpace.contains ·)).reverse.dropWhile
    (pySpace.contains ·)).reverse)

/-- Value of one character as a digit in base `base`, as Python's
`int(txt, base)` accepts it (`0-9`, then letters of either case). -/
def digitVal (base : Nat) (c : Char) : Option Nat :=
  let v :=
    if '0' ≤ c ∧ c ≤ '9' then some (c.toNat - '0'.toNat)
    else if 'a' ≤ c ∧ c ≤ 'z' then some (c.toNat - 'a'.toNat + 10)
    else if 'A' ≤ c ∧ c ≤ 'Z' then some (c.toNat - 'A'.toNat + 10)
    else none
  v.bind (fun d => if d < base then some d else none)

/-- Value of a non-empty run of digits in base `base`. -/
def digitsVal (base : Nat) (cs : List Char) : Option Nat :=
  cs.foldl (fun acc c => acc.bind (fun n => (digitVal base c).map (fun d => n * base + d)))
    (if cs.isEmpty then none else some 0)

/-- Model of the Python builtin `int(txt, base)` (external collaborator):
an optional sign followed by a non-empty digit string in the given base;
`none` models `ValueError`.  (Base prefixes such as `0x` and `_`
separators are not used by this program and are not modelled.) -/
def pyStrToInt (t : String) (base : Nat) : Option Int :=
  match t.toList with
  | '+' :: cs => (digitsVal base cs).map (fun n => (n : Int))
  | '-' :: cs => (digitsVal base cs).map (fun n => -(n : Int))
  | cs => (digitsVal base cs).map (fun n => (n : Int))

/-- The hex-detection test of `parse_int` (line 62):
`any(c in txt.upper() for c in "ABCDEF")`. -/
def hasHexLetter (txt : String) : Bool :=
  "ABCDEF".toList.any (fun c => (pyUpper txt).toList.contains c)

/-- An address cell value handed to `parse_int`: either numeric
(`int`/`float`, an exact rational) or a string. -/
inductive PyVal where
  | num (q : ℚ)
  | str (s : String)
deriving DecidableEq

/-- Embedding of `parse_int` (lines 58-62). -/
def parse_int : PyVal → Option Int
  | .num q => some (pyTrunc q)
  | .str s =>
    let txt := pyStrip s
    if hasHexLetter txt then pyStrToInt txt 16 else pyStrToInt txt 10

/-! ## Address mapping: `plc_to_modbus` (lines 84-89) -/

/-- One mapping segment, as `build_mapping` (lines 65-81) stores it:
`{plc_base, mb_base, count}`. -/
structure Seg where
  plc_base : Int
  mb_base : Int
  count : Int
deriving DecidableEq, Repr

/-- Embedding of `plc_to_modbus` (lines 84-89) applied to the segment
list of one memory category; `none` models the raised `ValueError`
(and the `KeyError` of a category with no segments, whose segment list
is empty here). -/
def plc_to_modbus (segs : List Seg) (plc_addr : Int) : Option Int :=
  (segs.find? (fun s => decide (s.plc_base ≤ plc_addr ∧ plc_addr < s.plc_base + s.count))).map
    (fun s => s.mb_base + (plc_addr - s.plc_base))

/-! ## Type normalization (lines 93-109) and the type decision of
`load_points` (lines 127-137) -/

/-- An Excel `type` cell value: `NaN`, a number, or a string.  (The
numeric case is modelled for integral values, the only ones the claims
mention; Python applies `str(int(v))` to it.) -/
inductive TpVal where
  | nan
  | num (n : Int)
  | str (s : String)
deriving DecidableEq

/-- The string branch of `_normalize_type`: `strip().lower()` followed by
the two membership tests (lines 104-109). -/
def normalizeStr (s : String) : String :=
  let tp := pyLower (pyStrip s)
  if tp = "16" ∨ tp = "s16" ∨ tp = "int16" then "s16"
  else if tp = "u16" ∨ tp = "uint16" then "u16"
  else ""

/-- Embedding of `_normalize_type` (lines 93-109). -/
def normalize_type : TpVal → String
  | .nan => ""
  | .num n => normalizeStr (toString n)
  | .str s => normalizeStr s

/-- The size/format decision of `load_points` (lines 127-137): word
category `"D"` consults the normalized type hint, every other (bit)
category gets `(1, "bit")`. -/
def point_size_fmt (mem : String) (tp : TpVal) : Int × String :=
  if mem = "D" then
    let tp_norm := normalize_type tp
    if tp_norm = "s16" then (1, "s16")
    else if tp_norm = "u16" then (1, "u16")
    else (2, "s32")
  else (1, "bit")

/-! ## Decoder: `_decode_value` (lines 183-198) -/

/-- `_u16_to_s16` (line 33); the argument is a register word. -/
def u16_to_s16 (x : Nat) : Int :=
  if x &&& 0x8000 ≠ 0 then (x : Int) - 0x10000 else (x : Int)

/-- `_u32_to_s32` (line 34). -/
def u32_to_s32 (x : Nat) : Int :=
  if x &&& 0x80000000 ≠ 0 then (x : Int) - 0x100000000 else (x : Int)

/-- Python list subscription `l[i]` with a possibly negative index;
`none` models `IndexError`. -/
def pyGet {α : Type} (l : List α) (i : Int) : Option α :=
  if 0 ≤ i then l[i.toNat]?
  else if 0 ≤ (l.length : Int) + i then l[((l.length : Int) + i).toNat]?
  else none

/-- The per-batch raw-result dictionary entry built in `run`
(lines 222-229): `start` plus either a bit list or a register list. -/
structure BData where
  start : Int
  bits : Option (List Bool)
  regs : Option (List Nat)
deriving DecidableEq, Repr

/-- Embedding of `_decode_value` (lines 183-198); `none` models any
raised exception (missing dict key or index error). -/
def decode_value (pt : ModbusPoint) (data : BData) : Option Int :=
  let idx := pt.offset - data.start
  if pt.method = "read_coils" ∨ pt.method = "read_discrete_inputs" then
    (data.bits.bind (fun bs => pyGet bs idx)).map (fun b => if b then 1 else 0)
  else if pt.size = 1 then
    (data.regs.bind (fun rs => pyGet rs idx)).map
      (fun raw => if pt.fmt = "s16" then u16_to_s16 raw else (raw : Int))
  else
    (data.regs.bind (fun rs => pyGet rs idx)).bind (fun low =>
      (data.regs.bind (fun rs => pyGet rs (idx + 1))).map (fun high =>
        u32_to_s32 ((high <<< 16) ||| low)))

/-! ## Batching: `_make_batches` (lines 159-180) -/

/-- The keys of the `defaultdict` grouping of line 161-163, in first
insertion order (the iteration order of `grouped.items()`). -/
def keyList : List ModbusPoint → List String
  | [] => []
  | p :: rest => p.method :: (keyList rest).filter (fun m => m != p.method)

/-- The sort key of line 167: comparison of `offset`. -/
def ptLE (p q : ModbusPoint) : Prop := p.offset ≤ q.offset

instance : DecidableRel ptLE :=
  fun p q => inferInstanceAs (Decidable (p.offset ≤ q.offset))

instance : IsTotal ModbusPoint ptLE := ⟨fun p q => Int.le_total p.offset q.offset⟩

instance : IsTrans ModbusPoint ptLE := ⟨fun _ _ _ h h' => le_trans h h'⟩

/-- `pts.sort(key=lambda p: p.offset)` (line 167): a stable sort by
`offset`, modelled by the (stable) insertion sort. -/
def sortPoints (pts : List ModbusPoint) : List ModbusPoint :=
  pts.insertionSort ptLE

/-- The inner `while` loops of `_make_batches` (lines 169-179): the
current run has start `start`, exclusive end `e`, and members `acc` in
reverse order; contiguous points extend the run, any other point closes
the current batch and opens a new one. -/
def runsGo (m : String) (start e : Int) (acc : List ModbusPoint) :
    List ModbusPoint → List Batch
  | [] => [⟨m, start, e - start, acc.reverse⟩]
  | p :: rest =>
    if p.offset = e then runsGo m start (e + p.size) (p :: acc) rest
    else ⟨m, start, e - start, acc.reverse⟩ :: runsGo m p.offset (p.offset + p.size) [p] rest

/-- The batches of one (already sorted) method group. -/
def batchRuns : List ModbusPoint → List Batch
  | [] => []
  | p :: rest => runsGo p.method p.offset (p.offset + p.size) [p] rest

/-- The sorted group of one access method: `grouped[m]` after the sort of
line 167. -/
def methodGroup (points : List ModbusPoint) (m : String) : List ModbusPoint :=
  sortPoints (points.filter (fun p => p.method == m))

/-- Embedding of `ModbusWorker._make_batches` (lines 159-180). -/
def make_batches (points : List ModbusPoint) : List Batch :=
  (keyList points).flatMap (fun m => batchRuns (methodGroup points m))

/-! ## `_batch_start` (lines 257-262) -/

/-- Embedding of `ModbusWorker._batch_start`: the first batch whose
method matches and whose range contains the point's offset; `none`
models the raised `RuntimeError`. -/
def batch_start (batches : List Batch) (pt : ModbusPoint) : Option Int :=
  (batches.find? (fun b =>
    b.method == pt.method && decide (b.start ≤ pt.offset) &&
      decide (pt.offset < b.start + b.count))).map (·.start)

/-! ## One tick of the poll loop (`run`, lines 214-248) -/

/-- The raw result of one successful transport read (pymodbus `rr`):
bit methods use `.bits`, register methods use `.registers`. -/
structure RawRead where
  bits : List Bool
  regs : List Nat
deriving DecidableEq, Repr

/-- Whether a method is one of the bit-reading methods (line 222). -/
def isBitMethod (m : String) : Bool :=
  m == "read_coils" || m == "read_discrete_inputs"

/-- The dict value stored for one successfully read batch
(lines 222-229). -/
def mkBData (b : Batch) (r : RawRead) : BData :=
  if isBitMethod b.method then ⟨b.start, some r.bits, none⟩
  else ⟨b.start, none, some r.regs⟩

/-- The `batch_data` dictionary built by the first loop of a tick
(lines 216-229), as the association list of its insertions: key
`(method, start)`, value `none` for a batch whose read errored (the
empty dict `{}` of line 220). -/
def batchData (read : Batch → Option RawRead) (bs : List Batch) :
    List ((String × Int) × Option BData) :=
  bs.map (fun b => ((b.method, b.start), (read b).map (mkBData b)))

/-- Python dict lookup over the insertion list: the value of the last
insertion with the given key, `none` if the key is absent. -/
def dictFind (entries : List ((String × Int) × Option BData)) (k : String × Int) :
    Option (Option BData) :=
  (entries.reverse.find? (fun e => e.1.1 == k.1 && e.1.2 == k.2)).map (·.2)

/-- The value of one point in one tick (lines 233-243): `-1` when the
batch read errored or decoding raised; `none` when `_batch_start`
raised, which aborts the whole tick. -/
def pointValue (bs : List Batch) (read : Batch → Option RawRead) (pt : ModbusPoint) :
    Option Int :=
  match batch_start bs pt with
  | none => none
  | some s =>
    match dictFind (batchData read bs) (pt.method, s) with
    | none => some (-1)
    | some none => some (-1)
    | some (some d) => some ((decode_value pt d).getD (-1))

/-- One tick of `ModbusWorker.run` (lines 214-248): the emitted row of
values, one per point in declaration order; `none` models an exception
escaping the per-point isolation (the `RuntimeError` of
`_batch_start`). -/
def tick_row (points : List ModbusPoint) (read : Batch → Option RawRead) :
    Option (List Int) :=
  points.mapM (pointValue (make_batches points) read)

/-! ## Address-map claims (C3, C4) -/

/-- Segments of one category are mutually non-overlapping. -/
abbrev segsDisjoint (segs : List Seg) : Prop :=
  segs.Pairwise (fun s t => s.plc_base + s.count ≤ t.plc_base ∨ t.plc_base + t.count ≤ s.plc_base)

theorem plc_to_modbus_eq_of_mem (segs : List Seg) (hdisj : segsDisjoint segs)
    (seg : Seg) (hmem : seg ∈ segs) (a : Int)
    (h1 : seg.plc_base ≤ a) (h2 : a < seg.plc_base + seg.count) :
    plc_to_modbus segs a = some (seg.mb_base + (a - seg.plc_base)) := by
  have hex : ∃ s ∈ segs, (decide (s.plc_base ≤ a ∧ a < s.plc_base + s.count)) = true :=
    ⟨seg, hmem, by simp [h1, h2]⟩
  obtain ⟨s', hfind⟩ := Option.isSome_iff_exists.mp (List.find?_isSome.mpr hex)
  have hps' := List.find?_some hfind
  have hmem' := List.mem_of_find?_eq_some hfind
  simp only [decide_eq_true_eq] at hps'
  have heq : s' = seg := by
    by_contra hne
    have hsym : Symmetric (fun s t : Seg =>
        s.plc_base + s.count ≤ t.plc_base ∨ t.plc_base + t.count ≤ s.plc_base) :=
      fun s t h => h.symm
    rcases (hdisj.forall hsym) hmem' hmem hne with h | h <;> omega
  subst heq
  simp only [plc_to_modbus]
  rw [hfind]
  rfl

/-- C3: on a category whose segments are non-overlapping, `resolve` of any
logical address covered by a member segment returns
`physical_base + (logical_addr - logical_base)`; in particular the two
segment endpoints resolve to the two physical endpoints, and for the
single segment `{logical_base:100, physical_base:0, length:5}` address
`102` resolves to `2`. -/
theorem plc_to_modbus_resolves (segs : List Seg) (hdisj : segsDisjoint segs)
    (seg : Seg) (hmem : seg ∈ segs) :
    (∀ a : Int, seg.plc_base ≤ a → a < seg.plc_base + seg.count →
      plc_to_modbus segs a = some (seg.mb_base + (a - seg.plc_base))) ∧
    (1 ≤ seg.count →
      plc_to_modbus segs seg.plc_base = some seg.mb_base ∧
      plc_to_modbus segs (seg.plc_base + seg.count - 1)
        = some (seg.mb_base + (seg.count - 1))) ∧
    plc_to_modbus [⟨100, 0, 5⟩] 102 = some 2 := by
  refine ⟨fun a ha hb => plc_to_modbus_eq_of_mem segs hdisj seg hmem a ha hb, fun hc => ⟨?_, ?_⟩, by decide⟩
  · have := plc_to_modbus_eq_of_mem segs hdisj seg hmem seg.plc_base le_rfl (by omega)
    simpa using this
  · have := plc_to_modbus_eq_of_mem segs hdisj seg hmem (seg.plc_base + seg.count - 1)
      (by omega) (by omega)
    rw [this]
    ring_nf

/-- Witness for C3 at the concrete one-segment map of the spec's example. -/
theorem plc_to_modbus_resolves_witness :
    plc_to_modbus [⟨100, 0, 5⟩] 104 = some 4 := by
  have h := plc_to_modbus_resolves [⟨100, 0, 5⟩] (by decide) ⟨100, 0, 5⟩ (by decide)
  simpa using h.1 104 (by decide) (by decide)

/-- C4: `resolve` fails (returns no value) exactly when no segment of the
category covers the logical address — in particular always when the
category has no segments. -/
theorem plc_to_modbus_fails_iff_unmapped (segs : List Seg) (a : Int) :
    plc_to_modbus segs a = none ↔
      ∀ seg ∈ segs, ¬(seg.plc_base ≤ a ∧ a < seg.plc_base + seg.count) := by
  simp [plc_to_modbus, List.find?_eq_none]

/-- Witness for C4: address `105` lies outside the spec's example segment,
so resolution fails. -/
theorem plc_to_modbus_fails_iff_unmapped_witness :
    plc_to_modbus [⟨100, 0, 5⟩] 105 = none :=
  (plc_to_modbus_fails_iff_unmapped [⟨100, 0, 5⟩] 105).mpr (by decide)

/-! ## `parse_int` claim (C10) -/

/-- C10: a numeric cell is truncated toward zero (floor for non-negative
values, ceiling for negative ones); a string cell is trimmed and parsed
in base 16 when it contains one of the letters `A`-`F` in either case,
in base 10 otherwise; hence `"1E5"` (and `"1e5"`) is read as the
hexadecimal 485. -/
theorem parse_int_spec :
    (∀ q : ℚ, (0 ≤ q → parse_int (.num q) = some ⌊q⌋) ∧
              (q < 0 → parse_int (.num q) = some ⌈q⌉)) ∧
    (∀ s : String, hasHexLetter (pyStrip s) = true →
        parse_int (.str s) = pyStrToInt (pyStrip s) 16) ∧
    (∀ s : String, hasHexLetter (pyStrip s) = false →
        parse_int (.str s) = pyStrToInt (pyStrip s) 10) ∧
    parse_int (.str "1E5") = some 485 ∧ parse_int (.str "1e5") = some 485 := by
  refine ⟨fun q => ⟨fun h => ?_, fun h => ?_⟩, fun s h => ?_, fun s h => ?_, by decide, by decide⟩
  · simp [parse_int, pyTrunc, h]
  · simp [parse_int, pyTrunc, not_le.mpr h]
  · simp [parse_int, h]
  · simp [parse_int, h]

/-- Witness for C10 at concrete inputs: `int(-7/2)` truncates to `-3`. -/
theorem parse_int_spec_witness :
    parse_int (.num (-7/2 : ℚ)) = some (-3) ∧ parse_int (.str " 123 ") = some 123 := by
  constructor
  · have h := (parse_int_spec.1 (-7/2 : ℚ)).2 (by norm_num)
    rw [h]
    norm_num [Int.ceil_eq_iff]
  · have h := parse_int_spec.2.2.1 " 123 " (by decide)
    rw [h]
    decide

/-! ## Type-decision claim (C6) -/

/-- C6: on the word category `"D"` a hint normalizing to `16`/`s16`/`int16`
yields a signed 16-bit point of width 1, `u16`/`uint16` an unsigned
16-bit point of width 1, and an absent (`NaN`) or unrecognized hint a
signed 32-bit point of width 2; points of the bit categories
`M`/`L`/`Y`/`X` always get `(1, "bit")` whatever the hint. -/
theorem point_size_fmt_spec :
    (∀ s : String, pyLower (pyStrip s) = "16" ∨ pyLower (pyStrip s) = "s16" ∨ pyLower (pyStrip s) = "int16" →
        point_size_fmt "D" (.str s) = (1, "s16")) ∧
    (∀ s : String, pyLower (pyStrip s) = "u16" ∨ pyLower (pyStrip s) = "uint16" →
        point_size_fmt "D" (.str s) = (1, "u16")) ∧
    (∀ s : String, pyLower (pyStrip s) ≠ "16" → pyLower (pyStrip s) ≠ "s16" → pyLower (pyStrip s) ≠ "int16" →
        pyLower (pyStrip s) ≠ "u16" → pyLower (pyStrip s) ≠ "uint16" →
        point_size_fmt "D" (.str s) = (2, "s32")) ∧
    point_size_fmt "D" .nan = (2, "s32") ∧
    point_size_fmt "D" (.num 16) = (1, "s16") ∧
    (∀ mem : String, mem = "M" ∨ mem = "L" ∨ mem = "Y" ∨ mem = "X" → ∀ tp : TpVal,
        point_size_fmt mem tp = (1, "bit")) := by
  refine ⟨fun s h => ?_, fun s h => ?_, fun s h1 h2 h3 h4 h5 => ?_, by decide, by decide,
    fun mem h tp => ?_⟩
  · rcases h with h | h | h <;> simp [point_size_fmt, normalize_type, normalizeStr, h]
  · rcases h with h | h <;> simp [point_size_fmt, normalize_type, normalizeStr, h]
  · simp [point_size_fmt, normalize_type, normalizeStr, h1, h2, h3, h4, h5]
  · rcases h with h | h | h | h <;> subst h <;> rcases tp with _ | n | s <;> simp [point_size_fmt]

/-- Witness for C6 at concrete hints. -/
theorem point_size_fmt_spec_witness :
    point_size_fmt "D" (.str " INT16 ") = (1, "s16") ∧
    point_size_fmt "X" (.str "u16") = (1, "bit") := by
  constructor
  · exact point_size_fmt_spec.1 " INT16 " (by decide)
  · exact point_size_fmt_spec.2.2.2.2.2 "X" (by simp) (.str "u16")

/-! ## Decoder claims (C2) -/

theorem u16_to_s16_eq (v : Nat) (hv : v ≤ 65535) :
    u16_to_s16 v = if v < 32768 then (v : Int) else (v : Int) - 65536 := by
  have hand := Nat.and_two_pow v 15
  have htb := Nat.testBit_to_div_mod (i := 15) (x := v)
  norm_num at hand htb
  rcases Nat.lt_or_ge v 32768 with h | h
  · have hb : v.testBit 15 = false := by rw [htb]; simp only [decide_eq_false_iff_not]; omega
    rw [hb] at hand
    simp [u16_to_s16, hand, h]
  · have hb : v.testBit 15 = true := by rw [htb]; simp only [decide_eq_true_eq]; omega
    rw [hb] at hand
    simp [u16_to_s16, hand, Nat.not_lt.mpr h]

theorem u32_to_s32_eq (v : Nat) (hv : v ≤ 4294967295) :
    u32_to_s32 v = if v < 2147483648 then (v : Int) else (v : Int) - 4294967296 := by
  have hand := Nat.and_two_pow v 31
  have htb := Nat.testBit_to_div_mod (i := 31) (x := v)
  norm_num at hand htb
  rcases Nat.lt_or_ge v 2147483648 with h | h
  · have hb : v.testBit 31 = false := by rw [htb]; simp only [decide_eq_false_iff_not]; omega
    rw [hb] at hand
    simp [u32_to_s32, hand, h]
  · have hb : v.testBit 31 = true := by rw [htb]; simp only [decide_eq_true_eq]; omega
    rw [hb] at hand
    simp [u32_to_s32, hand, Nat.not_lt.mpr h]

theorem pyGet_append {α : Type} (pre rest : List α) (x : α) (k : Nat) (i : Int)
    (hik : i = pre.length + k) :
    pyGet (pre ++ x :: rest) i = (x :: rest)[k]? := by
  subst hik
  unfold pyGet
  rw [if_pos (by positivity)]
  have ht : ((pre.length : Int) + k).toNat = pre.length + k := by omega
  rw [ht, List.getElem?_append_right (by omega)]
  congr 1
  omega

/-- C2: a register word `v ≤ 65535` of an `Int16` point decodes to `v`
when `v < 32768` and to `v - 65536` otherwise; two consecutive words
`(low, high)` of an `Int32` point decode to `combined = low ||| (high <<< 16)`
when `combined < 2^31` and to `combined - 2^32` otherwise; in particular
`(low, high) = (0xFFFF, 0xFFFF)` decodes to `-1`. -/
theorem decode_value_numeric :
    (∀ (v : Nat), v ≤ 65535 →
      ∀ (pre rest : List Nat) (start : Int) (lbl mem : String) (pa : Int),
      decode_value ⟨lbl, "read_holding_registers", start + (pre.length : Int), 1, "s16", mem, pa⟩
          ⟨start, none, some (pre ++ v :: rest)⟩
        = some (if v < 32768 then (v : Int) else (v : Int) - 65536)) ∧
    (∀ (low high : Nat), low ≤ 65535 → high ≤ 65535 →
      ∀ (pre rest : List Nat) (start : Int) (lbl mem : String) (pa : Int),
      decode_value ⟨lbl, "read_holding_registers", start + (pre.length : Int), 2, "s32", mem, pa⟩
          ⟨start, none, some (pre ++ low :: high :: rest)⟩
        = some (if (low ||| (high <<< 16)) < 2147483648
                then ((low ||| (high <<< 16) : Nat) : Int)
                else ((low ||| (high <<< 16) : Nat) : Int) - 4294967296)) ∧
    decode_value ⟨"", "read_holding_registers", 0, 2, "s32", "D", 0⟩
        ⟨0, none, some [0xFFFF, 0xFFFF]⟩ = some (-1) := by
  refine ⟨?_, ?_, by decide⟩
  · intro v hv pre rest start lbl mem pa
    have hg : pyGet (pre ++ v :: rest) ((pre.length : Int)) = some v := by
      rw [pyGet_append pre rest v 0 _ (by simp)]
      simp
    simp [decode_value, hg, u16_to_s16_eq v hv]
  · intro low high hlow hhigh pre rest start lbl mem pa
    have hg0 : pyGet (pre ++ low :: high :: rest) ((pre.length : Int)) = some low := by
      rw [pyGet_append pre (high :: rest) low 0 _ (by simp)]
      simp
    have hg1 : pyGet (pre ++ low :: high :: rest) ((pre.length : Int) + 1) = some high := by
      rw [pyGet_append pre (high :: rest) low 1 _ (by push_cast; ring)]
      simp
    have hbound : (high <<< 16) ||| low ≤ 4294967295 := by
      have := Nat.append_lt (x := low) (y := high) (n := 16) (m := 16) (by omega) (by omega)
      omega
    have hbound2 : low ||| (high <<< 16) ≤ 4294967295 := by
      rw [Nat.lor_comm]
      exact hbound
    simp [decode_value, hg0, hg1, Nat.lor_comm, u32_to_s32_eq _ hbound2]

/-- Witness for C2 at concrete words. -/
theorem decode_value_numeric_witness :
    decode_value ⟨"", "read_holding_registers", 5, 1, "s16", "D", 0⟩
        ⟨5, none, some [40000]⟩ = some (-25536) := by
  have h := decode_value_numeric.1 40000 (by norm_num) [] [] 5 "" "D" 0
  simpa using h

/-! ## Batching example claim (C8) -/

/-- C8: three width-1 points of one category at physical offsets 10, 11
and 13 batch into exactly `[(start 10, length 2), (start 13, length 1)]`:
the gap at offset 12 splits the run. -/
theorem make_batches_gap_example :
    (make_batches
      [⟨"p1", "read_coils", 10, 1, "bit", "M", 10⟩,
       ⟨"p2", "read_coils", 11, 1, "bit", "M", 11⟩,
       ⟨"p3", "read_coils", 13, 1, "bit", "M", 13⟩]).map (fun b => (b.start, b.count))
      = [(10, 2), (13, 1)] := by decide

/-! ## Batching theory (C1, C7, C9, C5) -/

/-- `fpLE p q`: the footprint of `q` starts at or after the end of the
footprint of `p`. -/
abbrev fpLE (p q : ModbusPoint) : Prop := p.offset + p.size ≤ q.offset

/-- All points have positive width (`load_points` only produces widths 1
and 2). -/
abbrev sizesPos (l : List ModbusPoint) : Prop := ∀ p ∈ l, 1 ≤ p.size

/-- Footprints of points sharing a category never overlap. -/
abbrev catDisjoint (l : List ModbusPoint) : Prop :=
  l.Pairwise (fun p q => p.method = q.method → (fpLE p q ∨ fpLE q p))

theorem runsGo_flat (m : String) :
    ∀ (l : List ModbusPoint) (start e : Int) (acc : List ModbusPoint),
      (runsGo m start e acc l).flatMap Batch.points = acc.reverse ++ l := by
  intro l
  induction l with
  | nil => intro start e acc; simp [runsGo]
  | cons p rest ih =>
    intro start e acc
    by_cases hpe : p.offset = e
    · rw [runsGo, if_pos hpe, ih]
      simp
    · rw [runsGo, if_neg hpe]
      simp [ih]

theorem runsGo_method (m : String) :
    ∀ (l : List ModbusPoint) (start e : Int) (acc : List ModbusPoint),
      ∀ b ∈ runsGo m start e acc l, b.method = m := by
  intro l
  induction l with
  | nil => intro start e acc b hb; simp [runsGo] at hb; subst hb; rfl
  | cons p rest ih =>
    intro start e acc b hb
    by_cases hpe : p.offset = e
    · rw [runsGo, if_pos hpe] at hb
      exact ih start (e + p.size) (p :: acc) b hb
    · rw [runsGo, if_neg hpe] at hb
      rcases List.mem_cons.mp hb with h | h
      · subst h; rfl
      · exact ih p.offset (p.offset + p.size) [p] b h

theorem runsGo_bounds (m : String) :
    ∀ (l : List ModbusPoint) (start e : Int) (acc : List ModbusPoint),
      sizesPos l → start + 1 ≤ e →
      (∀ a ∈ acc, start ≤ a.offset ∧ a.offset + a.size ≤ e) →
      ∀ b ∈ runsGo m start e acc l, 1 ≤ b.count ∧
        ∀ q ∈ b.points, b.start ≤ q.offset ∧ q.offset + q.size ≤ b.start + b.count := by
  intro l
  induction l with
  | nil =>
    intro start e acc _ hse hacc b hb
    simp only [runsGo, List.mem_singleton] at hb
    subst hb
    refine ⟨by simp; omega, ?_⟩
    intro q hq
    simp only [List.mem_reverse] at hq
    have := hacc q hq
    simp
    omega
  | cons p rest ih =>
    intro start e acc hpos hse hacc b hb
    have hp1 : 1 ≤ p.size := hpos p (by simp)
    by_cases hpe : p.offset = e
    · rw [runsGo, if_pos hpe] at hb
      refine ih start (e + p.size) (p :: acc)
        (fun q hq => hpos q (by simp [hq])) (by omega) ?_ b hb
      intro a ha
      rcases List.mem_cons.mp ha with h | h
      · subst h
        omega
      · have := hacc a h
        omega
    · rw [runsGo, if_neg hpe] at hb
      rcases List.mem_cons.mp hb with h | h
      · subst h
        refine ⟨by simp; omega, ?_⟩
        intro q hq
        simp only [List.mem_reverse] at hq
        have := hacc q hq
        simp
        omega
      · refine ih p.offset (p.offset + p.size) [p]
          (fun q hq => hpos q (by simp [hq])) (by omega) ?_ b h
        intro a ha
        simp only [List.mem_singleton] at ha
        subst ha
        omega

theorem runsGo_sep (m : String) :
    ∀ (l : List ModbusPoint) (start e : Int) (acc : List ModbusPoint),
      l.Pairwise fpLE → sizesPos l →
      (∀ p ∈ l, e ≤ p.offset) → start + 1 ≤ e →
      (∀ b ∈ runsGo m start e acc l, start ≤ b.start) ∧
      (runsGo m start e acc l).Pairwise (fun a b => a.start + a.count < b.start) := by
  intro l
  induction l with
  | nil =>
    intro start e acc _ _ _ hse
    constructor
    · intro b hb
      simp only [runsGo, List.mem_singleton] at hb
      subst hb
      simp
    · simp [runsGo]
  | cons p rest ih =>
    intro start e acc hpw hpos hge hse
    have hp1 : 1 ≤ p.size := hpos p (by simp)
    have hpe' : e ≤ p.offset := hge p (by simp)
    rcases List.pairwise_cons.mp hpw with ⟨hphead, hptail⟩
    by_cases hpe : p.offset = e
    · rw [runsGo, if_pos hpe]
      exact ih start (e + p.size) (p :: acc) hptail
        (fun q hq => hpos q (by simp [hq]))
        (fun q hq => by have := hphead q hq; omega) (by omega)
    · rw [runsGo, if_neg hpe]
      have hrec := ih p.offset (p.offset + p.size) [p] hptail
        (fun q hq => hpos q (by simp [hq]))
        (fun q hq => by have := hphead q hq; omega) (by omega)
      constructor
      · intro b hb
        rcases List.mem_cons.mp hb with h | h
        · subst h
          simp
        · have := hrec.1 b h
          omega
      · rw [List.pairwise_cons]
        refine ⟨?_, hrec.2⟩
        intro b hb
        have := hrec.1 b hb
        simp
        omega

theorem batchRuns_flat (l : List ModbusPoint) :
    (batchRuns l).flatMap Batch.points = l := by
  cases l with
  | nil => simp [batchRuns]
  | cons p rest => rw [batchRuns, runsGo_flat]; simp

theorem batchRuns_method (l : List ModbusPoint) (m : String)
    (hm : ∀ p ∈ l, p.method = m) :
    ∀ b ∈ batchRuns l, b.method = m := by
  cases l with
  | nil => simp [batchRuns]
  | cons p rest =>
    intro b hb
    rw [batchRuns] at hb
    rw [runsGo_method p.method rest p.offset (p.offset + p.size) [p] b hb]
    exact hm p (by simp)

theorem batchRuns_bounds (l : List ModbusPoint) (hpos : sizesPos l) :
    ∀ b ∈ batchRuns l, 1 ≤ b.count ∧
      ∀ q ∈ b.points, b.start ≤ q.offset ∧ q.offset + q.size ≤ b.start + b.count := by
  cases l with
  | nil => simp [batchRuns]
  | cons p rest =>
    have hp1 : 1 ≤ p.size := hpos p (by simp)
    exact runsGo_bounds p.method rest p.offset (p.offset + p.size) [p]
      (fun q hq => hpos q (by simp [hq])) (by omega)
      (fun a ha => by simp only [List.mem_singleton] at ha; subst ha; omega)

theorem batchRuns_sep (l : List ModbusPoint) (hpw : l.Pairwise fpLE)
    (hpos : sizesPos l) :
    (batchRuns l).Pairwise (fun a b => a.start + a.count < b.start) := by
  cases l with
  | nil => simp [batchRuns]
  | cons p rest =>
    have hp1 : 1 ≤ p.size := hpos p (by simp)
    rcases List.pairwise_cons.mp hpw with ⟨hphead, hptail⟩
    exact (runsGo_sep p.method rest p.offset (p.offset + p.size) [p] hptail
      (fun q hq => hpos q (by simp [hq]))
      (fun q hq => by have := hphead q hq; omega) (by omega)).2

theorem keyList_nodup (l : List ModbusPoint) : (keyList l).Nodup := by
  induction l with
  | nil => simp [keyList]
  | cons p rest ih =>
    rw [keyList, List.nodup_cons]
    constructor
    · intro hmem
      have := (List.mem_filter.mp hmem).2
      simp at this
    · exact ih.filter _

theorem mem_keyList (l : List ModbusPoint) (m : String) :
    m ∈ keyList l ↔ ∃ p ∈ l, p.method = m := by
  induction l with
  | nil => simp [keyList]
  | cons p rest ih =>
    rw [keyList]
    by_cases hm : m = p.method
    · subst hm
      simp
    · simp only [List.mem_cons, List.mem_filter]
      constructor
      · rintro (h | ⟨h, _⟩)
        · exact absurd h hm
        · obtain ⟨q, hq, hqm⟩ := ih.mp h
          exact ⟨q, by simp [hq], hqm⟩
      · rintro ⟨q, hq, hqm⟩
        rcases hq with h | h
        · subst h; exact absurd hqm.symm (by simpa using hm)
        · exact Or.inr ⟨ih.mpr ⟨q, h, hqm⟩, by simp [hm]⟩

theorem methodGroup_perm (points : List ModbusPoint) (m : String) :
    (methodGroup points m).Perm (points.filter (fun p => p.method == m)) :=
  List.perm_insertionSort ptLE _

theorem mem_methodGroup (points : List ModbusPoint) (m : String) (p : ModbusPoint) :
    p ∈ methodGroup points m ↔ p ∈ points ∧ p.method = m := by
  rw [(methodGroup_perm points m).mem_iff, List.mem_filter]
  simp

theorem methodGroup_sizesPos (points : List ModbusPoint) (m : String)
    (hpos : sizesPos points) : sizesPos (methodGroup points m) :=
  fun p hp => hpos p ((mem_methodGroup points m p).mp hp).1

theorem methodGroup_sorted (points : List ModbusPoint) (m : String) :
    (methodGroup points m).Pairwise ptLE :=
  List.sorted_insertionSort ptLE _

theorem methodGroup_pairwise_fpLE (points : List ModbusPoint) (m : String)
    (hpos : sizesPos points) (hdisj : catDisjoint points) :
    (methodGroup points m).Pairwise fpLE := by
  have hsym : ∀ {x y : ModbusPoint},
      (x.method = y.method → (fpLE x y ∨ fpLE y x)) →
      (y.method = x.method → (fpLE y x ∨ fpLE x y)) :=
    fun h hm => (h hm.symm).symm
  have h1 : (points.filter (fun p => p.method == m)).Pairwise
      (fun p q => p.method = q.method → (fpLE p q ∨ fpLE q p)) :=
    hdisj.sublist (List.filter_sublist points)
  have h2 : (methodGroup points m).Pairwise
      (fun p q => p.method = q.method → (fpLE p q ∨ fpLE q p)) :=
    ((methodGroup_perm points m).pairwise_iff hsym).mpr h1
  have h3 : (methodGroup points m).Pairwise (fun p q => fpLE p q ∨ fpLE q p) := by
    refine h2.imp_of_mem ?_
    intro a b ha hb hab
    exact hab (((mem_methodGroup points m a).mp ha).2.trans
      (((mem_methodGroup points m b).mp hb).2).symm)
  refine ((methodGroup_sorted points m).and h3).imp_of_mem ?_
  intro a b ha hb hab
  rcases hab.2 with h | h
  · exact h
  · have hb1 : 1 ≤ b.size := hpos b ((mem_methodGroup points m b).mp hb).1
    have := hab.1
    unfold ptLE at this
    omega

theorem filter_flatMap_method (ks : List String) (f : String → List Batch) (m : String)
    (hf : ∀ k ∈ ks, ∀ b ∈ f k, b.method = k) (hnd : ks.Nodup) :
    (ks.flatMap f).filter (fun b => b.method == m) = if m ∈ ks then f m else [] := by
  induction ks with
  | nil => simp
  | cons k ks ih =>
    rcases List.nodup_cons.mp hnd with ⟨hk, hnd2⟩
    rw [List.flatMap_cons, List.filter_append,
      ih (fun k' hk' => hf k' (by simp [hk'])) hnd2]
    by_cases hkm : k = m
    · subst hkm
      rw [List.filter_eq_self.mpr (fun b hb => by simp [hf k (by simp) b hb]),
        if_neg hk, if_pos (by simp)]
      simp
    · rw [List.filter_eq_nil_iff.mpr
        (fun b hb => by simp [hf k (by simp) b hb, hkm]), List.nil_append]
      by_cases hm : m ∈ ks
      · rw [if_pos hm, if_pos (by simp [hm])]
      · rw [if_neg hm, if_neg (by simp [hm, Ne.symm hkm])]

theorem make_batches_filter (points : List ModbusPoint) (m : String) :
    (make_batches points).filter (fun b => b.method == m)
      = if m ∈ keyList points then batchRuns (methodGroup points m) else [] :=
  filter_flatMap_method (keyList points) _ m
    (fun k _ b hb => batchRuns_method _ k
      (fun p hp => ((mem_methodGroup points k p).mp hp).2) b hb)
    (keyList_nodup points)

theorem make_batches_members (points : List ModbusPoint) :
    ∀ b ∈ make_batches points, ∀ q ∈ b.points, q ∈ points ∧ q.method = b.method := by
  intro b hb q hq
  obtain ⟨k, hk, hbk⟩ := List.mem_flatMap.mp hb
  have hq2 : q ∈ (batchRuns (methodGroup points k)).flatMap Batch.points :=
    List.mem_flatMap.mpr ⟨b, hbk, hq⟩
  rw [batchRuns_flat] at hq2
  have hqm := (mem_methodGroup points k q).mp hq2
  have hbm := batchRuns_method _ k
    (fun p hp => ((mem_methodGroup points k p).mp hp).2) b hbk
  exact ⟨hqm.1, hqm.2.trans hbm.symm⟩

theorem make_batches_bounds (points : List ModbusPoint) (hpos : sizesPos points) :
    ∀ b ∈ make_batches points, 1 ≤ b.count ∧
      ∀ q ∈ b.points, b.start ≤ q.offset ∧ q.offset + q.size ≤ b.start + b.count := by
  intro b hb
  obtain ⟨k, hk, hbk⟩ := List.mem_flatMap.mp hb
  exact batchRuns_bounds _ (methodGroup_sizesPos points k hpos) b hbk

theorem make_batches_cover (points : List ModbusPoint) (hpos : sizesPos points) :
    ∀ p ∈ points, ∃ b ∈ make_batches points, p ∈ b.points ∧ b.method = p.method ∧
      b.start ≤ p.offset ∧ p.offset + p.size ≤ b.start + b.count := by
  intro p hp
  have hm : p.method ∈ keyList points := (mem_keyList points p.method).mpr ⟨p, hp, rfl⟩
  have hpg : p ∈ methodGroup points p.method :=
    (mem_methodGroup points p.method p).mpr ⟨hp, rfl⟩
  have hflat : p ∈ (batchRuns (methodGroup points p.method)).flatMap Batch.points := by
    rw [batchRuns_flat]
    exact hpg
  obtain ⟨b, hb, hpb⟩ := List.mem_flatMap.mp hflat
  have hmb : b ∈ make_batches points := List.mem_flatMap.mpr ⟨p.method, hm, hb⟩
  have hbm := batchRuns_method _ p.method
    (fun q hq => ((mem_methodGroup points p.method q).mp hq).2) b hb
  have hbd := (make_batches_bounds points hpos b hmb).2 p hpb
  exact ⟨b, hmb, hpb, hbm, hbd.1, hbd.2⟩

theorem make_batches_method_pairwise (points : List ModbusPoint)
    (hpos : sizesPos points) (hdisj : catDisjoint points) (m : String) :
    ((make_batches points).filter (fun b => b.method == m)).Pairwise
      (fun a b => a.start + a.count < b.start) := by
  rw [make_batches_filter]
  by_cases hm : m ∈ keyList points
  · rw [if_pos hm]
    exact batchRuns_sep _ (methodGroup_pairwise_fpLE points m hpos hdisj)
      (methodGroup_sizesPos points m hpos)
  · rw [if_neg hm]
    simp

theorem make_batches_unique_range (points : List ModbusPoint)
    (hpos : sizesPos points) (hdisj : catDisjoint points) :
    ∀ b1 ∈ make_batches points, ∀ b2 ∈ make_batches points, b1.method = b2.method →
      ∀ x : Int, b1.start ≤ x → x < b1.start + b1.count →
        b2.start ≤ x → x < b2.start + b2.count → b1 = b2 := by
  intro b1 hb1 b2 hb2 hm x h1 h2 h3 h4
  by_contra hne
  have hf1 : b1 ∈ (make_batches points).filter (fun b => b.method == b1.method) :=
    List.mem_filter.mpr ⟨hb1, by simp⟩
  have hf2 : b2 ∈ (make_batches points).filter (fun b => b.method == b1.method) :=
    List.mem_filter.mpr ⟨hb2, by simp [hm]⟩
  have hpw : (List.filter (fun b => b.method == b1.method) (make_batches points)).Pairwise
      (fun a b : Batch => (a.start + a.count < b.start) ∨ (b.start + b.count < a.start)) :=
    (make_batches_method_pairwise points hpos hdisj b1.method).imp (fun h => Or.inl h)
  have hsym : Symmetric (fun a b : Batch =>
      (a.start + a.count < b.start) ∨ (b.start + b.count < a.start)) :=
    fun a b h => h.symm
  rcases hpw.forall hsym hf1 hf2 hne with h | h <;> omega

theorem make_batches_unique_member (points : List ModbusPoint)
    (hpos : sizesPos points) (hdisj : catDisjoint points) :
    ∀ p ∈ points, ∀ b1 ∈ make_batches points, p ∈ b1.points →
      ∀ b2 ∈ make_batches points, p ∈ b2.points → b1 = b2 := by
  intro p hp b1 hb1 hp1 b2 hb2 hp2
  have hm1 := (make_batches_members points b1 hb1 p hp1).2
  have hm2 := (make_batches_members points b2 hb2 p hp2).2
  have hps : 1 ≤ p.size := hpos p hp
  have hd1 := (make_batches_bounds points hpos b1 hb1).2 p hp1
  have hd2 := (make_batches_bounds points hpos b2 hb2).2 p hp2
  exact make_batches_unique_range points hpos hdisj b1 hb1 b2 hb2 (hm1.symm.trans hm2)
    p.offset hd1.1 (by omega) hd2.1 (by omega)

/-- C1: for a point list of positive widths whose footprints do not
overlap within any category, every point belongs to exactly one batch,
that batch's range `[start, start+count)` contains the point's footprint
`[offset, offset+size)`, and within each category (access method) the
batches are pairwise non-overlapping with strictly ascending starts. -/
theorem make_batches_invariants (points : List ModbusPoint)
    (hpos : sizesPos points) (hdisj : catDisjoint points) :
    (∀ p ∈ points, ∃ b ∈ make_batches points,
      (p ∈ b.points ∧ b.start ≤ p.offset ∧ p.offset + p.size ≤ b.start + b.count) ∧
      ∀ b' ∈ make_batches points, p ∈ b'.points → b' = b) ∧
    (∀ m : String, ((make_batches points).filter (fun b => b.method == m)).Pairwise
      (fun a b => a.start + a.count ≤ b.start ∧ a.start < b.start)) := by
  constructor
  · intro p hp
    obtain ⟨b, hb, hpb, hbm, hd1, hd2⟩ := make_batches_cover points hpos p hp
    exact ⟨b, hb, ⟨hpb, hd1, hd2⟩, fun b' hb' hpb' =>
      make_batches_unique_member points hpos hdisj p hp b' hb' hpb' b hb hpb⟩
  · intro m
    refine (make_batches_method_pairwise points hpos hdisj m).imp_of_mem ?_
    intro a b ha hb hab
    have hca := (make_batches_bounds points hpos a (List.mem_of_mem_filter ha)).1
    omega

/-- A concrete point list (three contiguous coils and one register word)
used to instantiate the hypotheses of the batching theorems. -/
def pt0 : ModbusPoint := ⟨"a", "read_coils", 0, 1, "bit", "M", 0⟩

/-- Concrete point list accompanying `pt0`. -/
def pointsW : List ModbusPoint :=
  [pt0,
   ⟨"b", "read_coils", 1, 1, "bit", "M", 1⟩,
   ⟨"c", "read_coils", 2, 1, "bit", "M", 2⟩,
   ⟨"d", "read_holding_registers", 10, 1, "u16", "D", 10⟩]

/-- Witness for C1 at the concrete list `pointsW`. -/
theorem make_batches_invariants_witness :
    ∃ b ∈ make_batches pointsW,
      (pt0 ∈ b.points ∧ b.start ≤ pt0.offset ∧ pt0.offset + pt0.size ≤ b.start + b.count) ∧
      ∀ b' ∈ make_batches pointsW, pt0 ∈ b'.points → b' = b :=
  (make_batches_invariants pointsW (by decide) (by decide)).1 pt0 (by decide)

/-! ## Permutation invariance (C7) -/

theorem keyList_perm (l1 l2 : List ModbusPoint) (h : l1.Perm l2) :
    (keyList l1).Perm (keyList l2) := by
  rw [List.perm_ext_iff_of_nodup (keyList_nodup l1) (keyList_nodup l2)]
  intro m
  rw [mem_keyList, mem_keyList]
  constructor
  · rintro ⟨p, hp, hpm⟩
    exact ⟨p, h.mem_iff.mp hp, hpm⟩
  · rintro ⟨p, hp, hpm⟩
    exact ⟨p, h.mem_iff.mpr hp, hpm⟩

theorem methodGroup_strict_sorted (points : List ModbusPoint)
    (hpos : sizesPos points) (hdisj : catDisjoint points) (m : String) :
    (methodGroup points m).Pairwise (fun p q => p.offset < q.offset) := by
  refine (methodGroup_pairwise_fpLE points m hpos hdisj).imp_of_mem ?_
  intro a b ha hb hab
  have := hpos a ((mem_methodGroup points m a).mp ha).1
  omega

theorem catDisjoint_perm (l1 l2 : List ModbusPoint) (hperm : l1.Perm l2)
    (hdisj : catDisjoint l1) : catDisjoint l2 := by
  have hsym : ∀ {x y : ModbusPoint},
      (x.method = y.method → (fpLE x y ∨ fpLE y x)) →
      (y.method = x.method → (fpLE y x ∨ fpLE x y)) :=
    fun h hm => (h hm.symm).symm
  exact (hperm.pairwise_iff hsym).mp hdisj

theorem methodGroup_perm_eq (points points' : List ModbusPoint) (hperm : points.Perm points')
    (hpos : sizesPos points) (hdisj : catDisjoint points) (m : String) :
    methodGroup points m = methodGroup points' m := by
  have hpos2 : sizesPos points' := fun p hp => hpos p (hperm.mem_iff.mpr hp)
  have hdisj2 : catDisjoint points' := catDisjoint_perm points points' hperm hdisj
  have hp : (methodGroup points m).Perm (methodGroup points' m) :=
    (methodGroup_perm points m).trans
      ((hperm.filter _).trans (methodGroup_perm points' m).symm)
  haveI : IsAntisymm ModbusPoint (fun p q => p.offset < q.offset) :=
    ⟨fun a b h1 h2 => absurd h2 (not_lt.mpr (le_of_lt h1))⟩
  exact List.eq_of_perm_of_sorted hp
    (methodGroup_strict_sorted points hpos hdisj m)
    (methodGroup_strict_sorted points' hpos2 hdisj2 m)

/-- C7: on a point list of positive widths with non-overlapping
footprints within each category, batching any permutation of the list
produces the same batches up to order — in particular the same multiset
(hence set) of `(start, length)` pairs. -/
theorem make_batches_perm_invariant (points points' : List ModbusPoint)
    (hpos : sizesPos points) (hdisj : catDisjoint points) (hperm : points.Perm points') :
    ((make_batches points').map (fun b => (b.start, b.count))).Perm
      ((make_batches points).map (fun b => (b.start, b.count))) := by
  have hmb : (make_batches points').Perm (make_batches points) := by
    unfold make_batches
    have hk : (keyList points').Perm (keyList points) := keyList_perm _ _ hperm.symm
    have heq : (fun m => batchRuns (methodGroup points' m))
        = (fun m => batchRuns (methodGroup points m)) :=
      funext fun m => by rw [methodGroup_perm_eq points points' hperm hpos hdisj m]
    rw [heq]
    exact hk.flatMap_right _
  exact hmb.map _

/-- Witness for C7: a rotation of `pointsW` yields the same
`(start, length)` multiset. -/
theorem make_batches_perm_invariant_witness :
    ((make_batches
      [⟨"d", "read_holding_registers", 10, 1, "u16", "D", 10⟩,
       ⟨"b", "read_coils", 1, 1, "bit", "M", 1⟩,
       ⟨"c", "read_coils", 2, 1, "bit", "M", 2⟩, pt0]).map
        (fun b => (b.start, b.count))).Perm
      ((make_batches pointsW).map (fun b => (b.start, b.count))) :=
  make_batches_perm_invariant pointsW _ (by decide) (by decide) (by decide)

/-! ## `_batch_start` claims (C9) -/

theorem batch_start_finds_some (points : List ModbusPoint) (hpos : sizesPos points) :
    ∀ pt ∈ points, ∃ b ∈ make_batches points,
      batch_start (make_batches points) pt = some b.start ∧
      b.method = pt.method ∧ b.start ≤ pt.offset ∧ pt.offset < b.start + b.count := by
  intro pt hpt
  obtain ⟨b0, hb0, hptb, hbm, hd1, hd2⟩ := make_batches_cover points hpos pt hpt
  have hps := hpos pt hpt
  have hpred : (fun b : Batch => b.method == pt.method && decide (b.start ≤ pt.offset) &&
      decide (pt.offset < b.start + b.count)) b0 = true := by
    simp [hbm, hd1]
    omega
  have hex : ∃ b ∈ make_batches points,
      (fun b : Batch => b.method == pt.method && decide (b.start ≤ pt.offset) &&
        decide (pt.offset < b.start + b.count)) b = true := ⟨b0, hb0, hpred⟩
  obtain ⟨b1, hfind⟩ := Option.isSome_iff_exists.mp (List.find?_isSome.mpr hex)
  have hp1 := List.find?_some hfind
  have hm1 := List.mem_of_find?_eq_some hfind
  simp only [Bool.and_eq_true, beq_iff_eq, decide_eq_true_eq] at hp1
  refine ⟨b1, hm1, ?_, hp1.1.1, hp1.1.2, hp1.2⟩
  simp only [batch_start]
  rw [hfind]
  rfl

theorem batch_start_member (points : List ModbusPoint) (hpos : sizesPos points)
    (hdisj : catDisjoint points) :
    ∀ pt ∈ points, ∃ b ∈ make_batches points, pt ∈ b.points ∧
      batch_start (make_batches points) pt = some b.start := by
  intro pt hpt
  obtain ⟨b0, hb0, hptb, hbm0, hd01, hd02⟩ := make_batches_cover points hpos pt hpt
  obtain ⟨b1, hb1, hbs, hbm1, hd11, hd12⟩ := batch_start_finds_some points hpos pt hpt
  have hps := hpos pt hpt
  have heq : b1 = b0 := make_batches_unique_range points hpos hdisj b1 hb1 b0 hb0
    (hbm1.trans hbm0.symm) pt.offset hd11 hd12 hd01 (by omega)
  subst heq
  exact ⟨b1, hb1, hptb, hbs⟩

/-- C9 counterexample: with overlapping footprints — which `load_points`
does not rule out — the batch-start lookup can return the start of a
batch that merely contains the point's offset in its range, not the
start of the batch that contains the point as a member: here the only
batch having the second point as a member starts at 11, yet the lookup
returns 10. -/
theorem batch_start_not_member_batch :
    batch_start
      (make_batches
        [⟨"a", "read_holding_registers", 10, 2, "s32", "D", 10⟩,
         ⟨"b", "read_holding_registers", 11, 1, "s16", "D", 11⟩])
      ⟨"b", "read_holding_registers", 11, 1, "s16", "D", 11⟩ = some 10 ∧
    ∀ b ∈ make_batches
        [⟨"a", "read_holding_registers", 10, 2, "s32", "D", 10⟩,
         ⟨"b", "read_holding_registers", 11, 1, "s16", "D", 11⟩],
      (⟨"b", "read_holding_registers", 11, 1, "s16", "D", 11⟩ : ModbusPoint) ∈ b.points →
        b.start = 11 := by decide

/-- C9 (amended): for every point of a session list whose widths are
positive, the lookup finds a batch with matching method whose range
contains the point's offset, so the failure branch is unreachable; when
moreover footprints within each category do not overlap, the returned
start is the start of the batch containing the point as a member. -/
theorem batch_start_spec (points : List ModbusPoint) (hpos : sizesPos points) :
    ∀ pt ∈ points,
      (∃ b ∈ make_batches points,
        batch_start (make_batches points) pt = some b.start ∧
        b.method = pt.method ∧ b.start ≤ pt.offset ∧ pt.offset < b.start + b.count) ∧
      (catDisjoint points → ∃ b ∈ make_batches points, pt ∈ b.points ∧
        batch_start (make_batches points) pt = some b.start) :=
  fun pt hpt => ⟨batch_start_finds_some points hpos pt hpt,
    fun hdisj => batch_start_member points hpos hdisj pt hpt⟩

/-- Witness for C9 at the concrete list `pointsW`. -/
theorem batch_start_spec_witness :
    (∃ b ∈ make_batches pointsW,
      batch_start (make_batches pointsW) pt0 = some b.start ∧
      b.method = pt0.method ∧ b.start ≤ pt0.offset ∧ pt0.offset < b.start + b.count) ∧
    (∃ b ∈ make_batches pointsW, pt0 ∈ b.points ∧
      batch_start (make_batches pointsW) pt0 = some b.start) :=
  ⟨(batch_start_spec pointsW (by decide) pt0 (by decide)).1,
   (batch_start_spec pointsW (by decide) pt0 (by decide)).2 (by decide)⟩

/-! ## One-tick isolation (C5) -/

/-- Wellformedness of one read outcome: a successful read returns at
least as many units as the batch requested (pymodbus may pad bit reads
to a byte boundary, hence `≤`). -/
def readOK (b : Batch) : Option RawRead → Bool
  | none => true
  | some r =>
    if isBitMethod b.method then decide ((b.count : Int) ≤ r.bits.length)
    else decide ((b.count : Int) ≤ r.regs.length)

theorem make_batches_key_unique (points : List ModbusPoint)
    (hpos : sizesPos points) (hdisj : catDisjoint points) :
    ∀ b1 ∈ make_batches points, ∀ b2 ∈ make_batches points,
      b1.method = b2.method → b1.start = b2.start → b1 = b2 := by
  intro b1 hb1 b2 hb2 hm hs
  have hc1 := (make_batches_bounds points hpos b1 hb1).1
  have hc2 := (make_batches_bounds points hpos b2 hb2).1
  exact make_batches_unique_range points hpos hdisj b1 hb1 b2 hb2 hm b1.start
    le_rfl (by omega) (by omega) (by omega)

theorem dictFind_batchData (read : Batch → Option RawRead) (points : List ModbusPoint)
    (hpos : sizesPos points) (hdisj : catDisjoint points)
    (b : Batch) (hb : b ∈ make_batches points) :
    dictFind (batchData read (make_batches points)) (b.method, b.start)
      = some ((read b).map (mkBData b)) := by
  unfold dictFind batchData
  have hmem : ((b.method, b.start), (read b).map (mkBData b)) ∈
      ((make_batches points).map
        (fun b => ((b.method, b.start), (read b).map (mkBData b)))).reverse := by
    rw [List.mem_reverse]
    exact List.mem_map_of_mem _ hb
  have hex : ∃ e ∈ ((make_batches points).map
      (fun b => ((b.method, b.start), (read b).map (mkBData b)))).reverse,
      (fun e : (String × Int) × Option BData =>
        e.1.1 == (b.method, b.start).1 && e.1.2 == (b.method, b.start).2) e = true :=
    ⟨_, hmem, by simp⟩
  obtain ⟨e, hfind⟩ := Option.isSome_iff_exists.mp (List.find?_isSome.mpr hex)
  have hpe := List.find?_some hfind
  have hme := List.mem_of_find?_eq_some hfind
  rw [List.mem_reverse] at hme
  obtain ⟨b', hb', hbe⟩ := List.mem_map.mp hme
  subst hbe
  simp only [Bool.and_eq_true, beq_iff_eq] at hpe
  have heq : b' = b := make_batches_key_unique points hpos hdisj b' hb' b hb hpe.1 hpe.2
  subst heq
  rw [hfind]
  rfl

theorem pyGet_some {α : Type} (l : List α) (i : Int) (h0 : 0 ≤ i)
    (hl : i < (l.length : Int)) : ∃ v, pyGet l i = some v := by
  unfold pyGet
  rw [if_pos h0]
  have ht : i.toNat < l.length := by omega
  exact ⟨l[i.toNat], List.getElem?_eq_getElem ht⟩

theorem decode_value_some (pt : ModbusPoint) (b : Batch) (r : RawRead)
    (hm : pt.method = b.method) (hsz : 1 ≤ pt.size)
    (h1 : b.start ≤ pt.offset) (h2 : pt.offset + pt.size ≤ b.start + b.count)
    (hok : readOK b (some r) = true) :
    ∃ v, decode_value pt (mkBData b r) = some v := by
  by_cases hbit : pt.method = "read_coils" ∨ pt.method = "read_discrete_inputs"
  · have hbitb : isBitMethod b.method = true := by
      rw [← hm]
      rcases hbit with h | h <;> simp [isBitMethod, h]
    have hmk : mkBData b r = ⟨b.start, some r.bits, none⟩ := by simp [mkBData, hbitb]
    have hlen : (b.count : Int) ≤ r.bits.length := by
      simp [readOK, hbitb] at hok
      exact_mod_cast hok
    obtain ⟨v, hv⟩ := pyGet_some r.bits (pt.offset - b.start) (by omega) (by omega)
    refine ⟨if v then 1 else 0, ?_⟩
    simp [decode_value, hmk, hbit, hv]
  · have hbitb : isBitMethod b.method = false := by
      rw [← hm]
      simp only [isBitMethod, Bool.or_eq_false_iff, beq_eq_false_iff_ne, ne_eq]
      constructor
      · intro h
        exact hbit (Or.inl h)
      · intro h
        exact hbit (Or.inr h)
    have hmk : mkBData b r = ⟨b.start, none, some r.regs⟩ := by simp [mkBData, hbitb]
    have hlen : (b.count : Int) ≤ r.regs.length := by
      simp [readOK, hbitb] at hok
      exact_mod_cast hok
    by_cases hsz1 : pt.size = 1
    · obtain ⟨v, hv⟩ := pyGet_some r.regs (pt.offset - b.start) (by omega) (by omega)
      refine ⟨if pt.fmt = "s16" then u16_to_s16 v else (v : Int), ?_⟩
      simp [decode_value, hmk, hbit, hsz1, hv]
    · obtain ⟨lo, hlo⟩ := pyGet_some r.regs (pt.offset - b.start) (by omega) (by omega)
      obtain ⟨hi, hhi⟩ := pyGet_some r.regs (pt.offset - b.start + 1) (by omega) (by omega)
      refine ⟨u32_to_s32 ((hi <<< 16) ||| lo), ?_⟩
      simp [decode_value, hmk, hbit, hsz1, hlo, hhi]

theorem mapM_option_some {α β : Type} (f : α → Option β) :
    ∀ l : List α, (∀ x ∈ l, (f x).isSome) →
      ∃ r : List β, l.mapM f = some r ∧ r.length = l.length ∧
        ∀ i : Nat, i < l.length → ∀ x, l[i]? = some x → r[i]? = f x := by
  intro l
  induction l with
  | nil => intro _; exact ⟨[], rfl, by simp, by simp⟩
  | cons a l ih =>
    intro h
    obtain ⟨y, hy⟩ := Option.isSome_iff_exists.mp (h a (by simp))
    obtain ⟨r, hr, hlen, hidx⟩ := ih (fun x hx => h x (by simp [hx]))
    refine ⟨y :: r, ?_, by simp [hlen], ?_⟩
    · rw [List.mapM_cons, hy, hr]
      rfl
    · intro i hi x hx
      cases i with
      | zero =>
        simp only [List.getElem?_cons_zero, Option.some_inj] at hx
        subst hx
        simp [hy]
      | succ n =>
        simp only [List.getElem?_cons_succ] at hx ⊢
        exact hidx n (by simpa using hi) x hx

theorem pointValue_spec (points : List ModbusPoint)
    (hpos : sizesPos points) (hdisj : catDisjoint points)
    (read : Batch → Option RawRead)
    (hread : ∀ b ∈ make_batches points, readOK b (read b) = true) :
    ∀ pt ∈ points, ∃ b ∈ make_batches points, pt ∈ b.points ∧
      pointValue (make_batches points) read pt
        = some (match read b with
                | none => -1
                | some r => (decode_value pt (mkBData b r)).getD (-1)) ∧
      ∀ r, read b = some r → ∃ v, decode_value pt (mkBData b r) = some v := by
  intro pt hpt
  obtain ⟨b, hb, hptb, hbs⟩ := batch_start_member points hpos hdisj pt hpt
  have hbm := (make_batches_members points b hb pt hptb).2
  have hbd := (make_batches_bounds points hpos b hb).2 pt hptb
  have hps := hpos pt hpt
  have hkey : dictFind (batchData read (make_batches points)) (pt.method, b.start)
      = some ((read b).map (mkBData b)) := by
    rw [hbm]
    exact dictFind_batchData read points hpos hdisj b hb
  refine ⟨b, hb, hptb, ?_, ?_⟩
  · simp only [pointValue, hbs, hkey]
    cases hr : read b with
    | none => rfl
    | some r => rfl
  · intro r hr
    have hok := hread b hb
    rw [hr] at hok
    exact decode_value_some pt b r hbm hps hbd.1 hbd.2 hok

/-- C5: in one tick over well-formed reads, every point whose batch read
errored receives the sentinel `-1` in the emitted row, while every point
whose batch read succeeded receives its actually decoded value (decoding
succeeds); the row covers all points, so one failed batch aborts neither
sibling batches nor the tick. -/
theorem tick_row_isolation (points : List ModbusPoint)
    (hpos : sizesPos points) (hdisj : catDisjoint points)
    (read : Batch → Option RawRead)
    (hread : ∀ b ∈ make_batches points, readOK b (read b) = true) :
    ∃ row : List Int, tick_row points read = some row ∧ row.length = points.length ∧
      ∀ i : Nat, i < points.length → ∀ pt, points[i]? = some pt →
        ∃ b ∈ make_batches points, pt ∈ b.points ∧
          (read b = none → row[i]? = some (-1)) ∧
          (∀ r, read b = some r → ∃ v, decode_value pt (mkBData b r) = some v ∧
            row[i]? = some v) := by
  have hall : ∀ pt ∈ points, (pointValue (make_batches points) read pt).isSome := by
    intro pt hpt
    obtain ⟨b, hb, _, heq, _⟩ := pointValue_spec points hpos hdisj read hread pt hpt
    simp [heq]
  obtain ⟨row, hrow, hlen, hidx⟩ := mapM_option_some _ points hall
  refine ⟨row, hrow, hlen, ?_⟩
  intro i hi pt hpt
  have hmem : pt ∈ points := List.getElem?_mem hpt
  obtain ⟨b, hb, hptb, heq, hdec⟩ := pointValue_spec points hpos hdisj read hread pt hmem
  have hri : row[i]? = pointValue (make_batches points) read pt := hidx i hi pt hpt
  refine ⟨b, hb, hptb, ?_, ?_⟩
  · intro hr
    rw [hri, heq, hr]
  · intro r hr
    obtain ⟨v, hv⟩ := hdec r hr
    refine ⟨v, hv, ?_⟩
    rw [hri, heq, hr]
    simp [hv]

/-- A concrete read outcome: the coil batch (three points) errors, the
register batch succeeds. -/
def readW : Batch → Option RawRead :=
  fun b => if b.method == "read_coils" then none else some ⟨[], [7]⟩

/-- Witness for C5: at `pointsW` under `readW` the tick emits a full row. -/
theorem tick_row_isolation_witness :
    ∃ row : List Int, tick_row pointsW readW = some row ∧ row.length = pointsW.length ∧
      ∀ i : Nat, i < pointsW.length → ∀ pt, pointsW[i]? = some pt →
        ∃ b ∈ make_batches pointsW, pt ∈ b.points ∧
          (readW b = none → row[i]? = some (-1)) ∧
          (∀ r, readW b = some r → ∃ v, decode_value pt (mkBData b r) = some v ∧
            row[i]? = some v) :=
  tick_row_isolation pointsW (by decide) (by decide) readW (by decide)

end ModbusCore
